import Mathlib

/-!
Verification development for the batch translation script `lang.py`.

The script reads an ARB string table (a JSON object, i.e. an ordered
mapping from string keys to JSON values), and for every target locale of a
hardcoded catalog builds a translated document and writes it to
`langfiles/app_<locale>.arb`.  Worker threads are dispatched with a
busy-wait bound of `THREADS` simultaneously alive threads.

The embedding below models JSON values (`JVal`), Python dict semantics
over ordered key/value lists (`dlookup`, `dinsert`: an insert of an
existing key updates the value in place and keeps the position, an insert
of a fresh key appends at the end), the placeholder regex, the per-locale
worker `translate_language`, the catalog, the dispatch loop as a step
relation, and the output file write as an observable-content sequence.
-/

set_option autoImplicit false

namespace LangPy

/-- JSON values as far as the script needs them: ARB tables map keys to
strings (translatable entries and the locale tag) or to JSON objects
(metadata entries). -/
inductive JVal where
  | str : String → JVal
  | obj : List (String × JVal) → JVal

/-- A Python dict with string keys, as its ordered key/value item list.
Keys are unique in an actual dict; theorems carry that as a
`List.Nodup` hypothesis on the mapped keys. -/
abbrev Table := List (String × JVal)

/-- Python dict read `d[k]`: value of the first (unique) matching key. -/
def dlookup (k : String) : Table → Option JVal
  | [] => none
  | (k₀, v₀) :: rest => if k₀ = k then some v₀ else dlookup k rest

/-- Python dict write `d[k] = v`: update in place when the key exists
(keeping its position), append at the end when it is fresh. -/
def dinsert (k : String) (v : JVal) : Table → Table
  | [] => [(k, v)]
  | (k₀, v₀) :: rest =>
    if k₀ = k then (k₀, v) :: rest else (k₀, v₀) :: dinsert k v rest

/-- Python `str.startswith`, spelled out on the character lists so that
it evaluates inside the kernel. -/
def strStartsWith (s p : String) : Bool := p.data.isPrefixOf s.data

/-- Python `str.endswith`, spelled out on the character lists so that it
evaluates inside the kernel. -/
def strEndsWith (s p : String) : Bool := p.data.isSuffixOf s.data

/-- Word characters of the regex class `\w` (ASCII range, as used by the
placeholder keys of ARB files): letters, digits and the underscore. -/
def isWordChar (c : Char) : Bool := c.isAlphanum || c = '_'

/-- After `{` and one word character have been read: accept as soon as a
closing `}` follows the run of word characters. -/
def closeAfterWords : List Char → Bool
  | [] => false
  | c :: rest => if c = '}' then true else isWordChar c && closeAfterWords rest

/-- Does the regex `{\w+}` match starting exactly at the head of the
character list? -/
def placeholderAt : List Char → Bool
  | '{' :: c :: rest => isWordChar c && closeAfterWords rest
  | _ => false

/-- `re.search` of the pattern `{\w+}`: some position of the list starts a
match. -/
def hasPlaceholderL : List Char → Bool
  | [] => false
  | c :: rest => placeholderAt (c :: rest) || hasPlaceholderL rest

/-- `placeholder_pattern.search(value)` of `lang.py` line 12: the value
contains a brace-delimited run of one or more word characters. -/
def hasPlaceholder (s : String) : Bool := hasPlaceholderL s.data

/-- `OUTPUT_DIR` of `lang.py` line 8. -/
def OUTPUT_DIR : String := "langfiles/"

/-- `THREADS` of `lang.py` line 9: the bound on parallel threads. -/
def THREADS : Nat := 6

/-- `os.path.join` for the POSIX flavour, two arguments: an absolute
second component replaces the first, otherwise a separator is added
unless the first component is empty or already ends with one. -/
def osPathJoin (a b : String) : String :=
  if strStartsWith b "/" then b
  else if a = "" || strEndsWith a "/" then a ++ b
  else a ++ "/" ++ b

/-- The hardcoded locale catalog of `lang.py` lines 14-33, in source
order (Python dicts iterate in insertion order). -/
def languages : List (String × String) :=
  [("hi", "Hindi"), ("bn", "Bengali"), ("ta", "Tamil"), ("te", "Telugu"),
   ("mr", "Marathi"), ("gu", "Gujarati"), ("kn", "Kannada"), ("ml", "Malayalam"),
   ("pa", "Punjabi"), ("ur", "Urdu"), ("ne", "Nepali"), ("as", "Assamese"),
   ("or", "Odia"),
   ("en", "English"), ("es", "Spanish"), ("fr", "French"), ("de", "German"),
   ("it", "Italian"), ("pt", "Portuguese"), ("nl", "Dutch"), ("pl", "Polish"),
   ("ru", "Russian"), ("uk", "Ukrainian"), ("sv", "Swedish"), ("da", "Danish"),
   ("no", "Norwegian"), ("fi", "Finnish"), ("cs", "Czech"), ("hu", "Hungarian"),
   ("ro", "Romanian"), ("el", "Greek"), ("sk", "Slovak"), ("sr", "Serbian"),
   ("hr", "Croatian"), ("bg", "Bulgarian"),
   ("zh-cn", "zh-CN"), ("zh-tw", "zh-TW"), ("ja", "Japanese"), ("ko", "Korean"),
   ("id", "Indonesian"), ("vi", "Vietnamese"), ("th", "Thai"),
   ("ar", "Arabic"), ("fa", "Persian"), ("he", "Hebrew"), ("sw", "Swahili"),
   ("es-MX", "es"), ("pt-BR", "pt")]

/-- The locales the dispatch loop (lines 72-80) actually dispatches: the
catalog keys in order, with the source locale `"en"` skipped. -/
def targetLocales : List String :=
  (languages.map Prod.fst).filter (fun k => !(k = "en" : Bool))

/-- `keys_to_translate` of `lang.py` line 42: the keys of the source
table that do not start with `"@"` (the second conjunct of the source is
kept even though it is subsumed by the first). -/
def keysToTranslate (table : Table) : List String :=
  (table.map Prod.fst).filter
    (fun k => !(strStartsWith k "@") && !(k = "@@locale" : Bool))

/-- The translation backend as seen by the worker:
`GoogleTranslator(source=en, target=lang).translate(value)`, which
returns the translated text or raises. -/
abbrev Backend := String → String → Except String String

/-- The per-key loop of `translate_language` (lines 49-59).  The
accumulator carries the document built so far, the error log (locale,
key, error message) and the list of values actually sent to the backend.
A key whose value is not a string makes `placeholder_pattern.search`
raise a `TypeError` that no handler catches (the `try` only surrounds the
backend call), killing the worker: modelled as `.error`. -/
def transLoop (tr : Backend) (lang : String) (table : Table) :
    List String → Table → List (String × String × String) → List String →
    Except String (Table × List (String × String × String) × List String)
  | [], doc, log, calls => .ok (doc, log, calls)
  | k :: ks, doc, log, calls =>
    match dlookup k table with
    | some (JVal.str v) =>
      if hasPlaceholder v then
        transLoop tr lang table ks (dinsert k (JVal.str v) doc) log calls
      else
        match tr lang v with
        | .ok t =>
          transLoop tr lang table ks (dinsert k (JVal.str t) doc) log (calls ++ [v])
        | .error e =>
          transLoop tr lang table ks (dinsert k (JVal.str v) doc)
            (log ++ [(lang, k, e)]) (calls ++ [v])
    | _ => .error k

/-- The metadata copy loop of `translate_language` (lines 61-64): every
item of the source table whose key starts with `"@"` is written into the
document unchanged. -/
def metaLoop : Table → Table → Table
  | [], doc => doc
  | (k, v) :: rest, doc =>
    metaLoop rest (if strStartsWith k "@" then dinsert k v doc else doc)

/-- What one worker produces: the finished document, the error log, the
values sent to the backend, and the list of destination paths written
(the worker opens exactly one file). -/
structure WorkerOut where
  doc : Table
  log : List (String × String × String)
  calls : List String
  writes : List String

/-- `translate_language` of `lang.py` lines 45-70: start the document at
`(at-at)locale := lang`, run the translation loop over
`keys_to_translate`, copy the metadata items, and write the document to
`os.path.join(OUTPUT_DIR, "app_" + lang + ".arb")`. -/
def translate_language (tr : Backend) (table : Table) (lang : String) :
    Except String WorkerOut :=
  match transLoop tr lang table (keysToTranslate table)
      [("@@locale", JVal.str lang)] [] [] with
  | .error e => .error e
  | .ok (doc, log, calls) =>
    .ok { doc := metaLoop table doc, log := log, calls := calls,
          writes := [osPathJoin OUTPUT_DIR ("app_" ++ lang ++ ".arb")] }

/-- The whole batch at the document level: one worker result per target
locale, in catalog order. -/
def batchRun (tr : Backend) (table : Table) :
    List (String × Except String WorkerOut) :=
  targetLocales.map (fun l => (l, translate_language tr table l))

/-- Projections of a worker run; a worker that died (uncaught exception)
produced no document, no log, no calls and no writes. -/
def lookupDoc (k : String) : Except String WorkerOut → Option JVal
  | .ok o => dlookup k o.doc
  | .error _ => none

/-- Key sequence of the document a run produced. -/
def docKeys : Except String WorkerOut → List String
  | .ok o => o.doc.map Prod.fst
  | .error _ => []

/-- Values a run sent to the backend. -/
def callsOf : Except String WorkerOut → List String
  | .ok o => o.calls
  | .error _ => []

/-- Failure log entries (locale, key, error) a run printed. -/
def logsOf : Except String WorkerOut → List (String × String × String)
  | .ok o => o.log
  | .error _ => []

/-- Destination paths a run wrote. -/
def writesOf : Except String WorkerOut → List String
  | .ok o => o.writes
  | .error _ => []

/-- Did the worker run to completion? -/
def runOk : Except String WorkerOut → Bool
  | .ok _ => true
  | .error _ => false

/-- The value a completed worker stores for one translatable entry, as a
function of that entry alone: the source value when it contains a
placeholder, otherwise the backend answer, falling back to the source
value when the backend fails. -/
def procV (tr : Backend) (lang v : String) : String :=
  if hasPlaceholder v then v
  else
    match tr lang v with
    | .ok t => t
    | .error _ => v

/-- The log entry one translatable entry contributes: the failure triple
when the value was sent and the backend failed, nothing otherwise. -/
def logEntry (tr : Backend) (lang v k : String) :
    Option (String × String × String) :=
  if hasPlaceholder v then none
  else
    match tr lang v with
    | .ok _ => none
    | .error e => some (lang, k, e)

/-- The backend call one translatable entry contributes: the value
itself when it contains no placeholder, nothing otherwise. -/
def callEntry (v : String) : Option String :=
  if hasPlaceholder v then none else some v

/-- A deterministic stub backend used for concrete runs. -/
def trStub : Backend := fun lang v => .ok (lang ++ ":" ++ v)

/-- The initial document of a worker: line 46 of `lang.py`. -/
def doc₀ (lang : String) : Table := [("@@locale", JVal.str lang)]

/-- The document after the translation loop and before the metadata
copy, in closed form, for a table whose translatable key `k` holds the
string value `f k`. -/
def docMid (tr : Backend) (table : Table) (lang : String)
    (f : String → String) : Table :=
  ("@@locale", JVal.str lang) ::
    (keysToTranslate table).map (fun k => (k, JVal.str (procV tr lang (f k))))

/-! ### The dispatch loop (lines 72-80) as a step relation

The main thread walks the catalog and, before starting each worker
thread, busy-waits until fewer than `THREADS` started threads are still
alive.  Only the main thread starts threads, and alive threads can only
finish, so the observable events are: spawn one pending locale while
fewer than `THREADS` workers are alive, or one alive worker finishes. -/

/-- Dispatch-loop state: locales not yet dispatched, and the number of
worker threads currently alive. -/
structure OrchState where
  pending : List String
  running : Nat

/-- One observable step of the dispatch loop. -/
inductive DispatchStep : OrchState → OrchState → Prop where
  | spawn (s : OrchState) (l : String) (rest : List String) :
      s.pending = l :: rest → s.running < THREADS →
      DispatchStep s { pending := rest, running := s.running + 1 }
  | finish (s : OrchState) :
      0 < s.running →
      DispatchStep s { pending := s.pending, running := s.running - 1 }

/-- States the dispatch loop can reach from its start state (the whole
catalog pending except the skipped source locale, no worker alive). -/
inductive DispatchReach : OrchState → Prop where
  | init : DispatchReach { pending := targetLocales, running := 0 }
  | step {s s₁ : OrchState} :
      DispatchReach s → DispatchStep s s₁ → DispatchReach s₁

/-! ### The output write (lines 66-70) as observable file contents

The worker opens the destination with mode `"w"`, which truncates the
file, and then `json.dump` streams the serialized document into it.  The
contents observable at the destination are therefore: the previous
contents, then (from the truncating open) the empty file, then the full
new contents once the dump has finished. -/

/-- Observable contents at the destination over the course of one write,
given the previous contents and the full serialized document. -/
def outputSink (old content : String) : List String := [old, "", content]

/-- The write is all-or-nothing: at no instant is anything other than
the previous contents or the full new contents observable. -/
def allOrNothing (old content : String) : Prop :=
  ∀ s ∈ outputSink old content, s = old ∨ s = content

/-! ### Concrete inputs used by counterexamples and witnesses -/

/-- The source table of the worked example in the spec. -/
def specTable : Table :=
  [("greet", JVal.str "Hello {name}"),
   ("@greet", JVal.obj [("placeholders", JVal.obj [("name", JVal.obj [])])]),
   ("bye", JVal.str "Goodbye"),
   ("@@locale", JVal.str "en")]

/-- The translatable values of `specTable`, as a function of the key. -/
def fSpec : String → String :=
  fun k => if k = "greet" then "Hello {name}" else "Goodbye"

/-- A well-formed source table without a locale-tag key. -/
def tableNoTag : Table := [("bye", JVal.str "Goodbye")]

/-- The translatable values of `tableNoTag`. -/
def fNoTag : String → String := fun _ => "Goodbye"

/-- A table whose metadata key precedes its translatable key. -/
def tableMetaFirst : Table :=
  [("@x", JVal.obj []), ("greet", JVal.str "Hello")]

/-- A two-entry table used to exercise failure isolation. -/
def tablePair : Table :=
  [("bye", JVal.str "Goodbye"), ("hello", JVal.str "Hello")]

/-- The translatable values of `tablePair`. -/
def fPair : String → String :=
  fun k => if k = "bye" then "Goodbye" else "Hello"

/-- A backend that fails exactly on the French translation of "Goodbye"
and otherwise behaves like the stub. -/
def trFail : Backend := fun l v =>
  if l = "fr" ∧ v = "Goodbye" then .error "boom" else trStub l v

/-- A table holding a value whose brace pair is malformed. -/
def tableBadBrace : Table := [("k1", JVal.str "{a-b}")]

/-- The translatable values of `tableBadBrace`. -/
def fBadBrace : String → String := fun _ => "{a-b}"

/-! ### Dict lemmas -/

theorem bool_eq_false {b : Bool} (h : ¬ b = true) : b = false := by
  cases b
  · rfl
  · exact absurd rfl h

theorem dlookup_dinsert_self (k : String) (v : JVal) (d : Table) :
    dlookup k (dinsert k v d) = some v := by
  induction d with
  | nil => simp [dinsert, dlookup]
  | cons p rest ih =>
    obtain ⟨k₀, v₀⟩ := p
    by_cases h : k₀ = k
    · subst h; simp [dinsert, dlookup]
    · simp [dinsert, dlookup, h, ih]

theorem dlookup_dinsert_ne (k k₁ : String) (v : JVal) (d : Table)
    (h : k₁ ≠ k) : dlookup k₁ (dinsert k v d) = dlookup k₁ d := by
  induction d with
  | nil => simp [dinsert, dlookup, Ne.symm h]
  | cons p rest ih =>
    obtain ⟨k₀, v₀⟩ := p
    by_cases h₀ : k₀ = k
    · subst h₀
      simp [dinsert, dlookup, Ne.symm h]
    · simp only [dinsert, if_neg h₀, dlookup]
      by_cases h₁ : k₀ = k₁ <;> simp [h₁, ih]

theorem dinsert_of_not_mem (k : String) (v : JVal) (d : Table)
    (h : k ∉ d.map Prod.fst) : dinsert k v d = d ++ [(k, v)] := by
  induction d with
  | nil => simp [dinsert]
  | cons p rest ih =>
    obtain ⟨k₀, v₀⟩ := p
    simp only [List.map_cons, List.mem_cons, not_or] at h
    simp [dinsert, Ne.symm h.1, ih h.2]

theorem dinsert_map_fst_of_mem (k : String) (v : JVal) (d : Table)
    (h : k ∈ d.map Prod.fst) :
    (dinsert k v d).map Prod.fst = d.map Prod.fst := by
  induction d with
  | nil => simp at h
  | cons p rest ih =>
    obtain ⟨k₀, v₀⟩ := p
    by_cases h₀ : k₀ = k
    · subst h₀; simp [dinsert]
    · simp only [List.map_cons, List.mem_cons] at h
      rcases h with h | h

      · exact absurd h.symm h₀
      · simp [dinsert, h₀, ih h]

theorem dinsert_map_fst_of_not_mem (k : String) (v : JVal) (d : Table)
    (h : k ∉ d.map Prod.fst) :
    (dinsert k v d).map Prod.fst = d.map Prod.fst ++ [k] := by
  rw [dinsert_of_not_mem k v d h]; simp

theorem dlookup_mem {k : String} {v : JVal} {d : Table}
    (h : dlookup k d = some v) : (k, v) ∈ d := by
  induction d with
  | nil => simp [dlookup] at h
  | cons p rest ih =>
    obtain ⟨k₀, v₀⟩ := p
    by_cases h₀ : k₀ = k
    · subst h₀
      rw [dlookup, if_pos rfl] at h
      rw [Option.some.injEq] at h
      subst h; exact List.mem_cons_self _ _
    · rw [dlookup, if_neg h₀] at h
      exact List.mem_cons_of_mem _ (ih h)

theorem mem_fst_of_dlookup {k : String} {v : JVal} {d : Table}
    (h : dlookup k d = some v) : k ∈ d.map Prod.fst := by
  have := dlookup_mem h
  exact List.mem_map_of_mem Prod.fst this

/-- Looking a key up in a document whose items were produced by mapping a
value function over a key list finds the value function at that key. -/
theorem dlookup_map_self (g : String → JVal) {k : String} {ks : List String}
    (h : k ∈ ks) :
    dlookup k (ks.map (fun x => (x, g x))) = some (g k) := by
  induction ks with
  | nil => simp at h
  | cons a rest ih =>
    by_cases ha : a = k
    · subst ha; simp [dlookup]
    · rcases List.mem_cons.mp h with h₁ | h₁
      · exact absurd h₁.symm ha
      · simp [dlookup, ha, ih h₁]

theorem dlookup_of_not_mem {k : String} {d : Table}
    (h : k ∉ d.map Prod.fst) : dlookup k d = none := by
  induction d with
  | nil => rfl
  | cons p rest ih =>
    obtain ⟨k₀, v₀⟩ := p
    simp only [List.map_cons, List.mem_cons, not_or] at h
    simp [dlookup, Ne.symm h.1, ih h.2]

/-! ### Key-class lemmas -/

theorem locale_tag_starts_at : strStartsWith "@@locale" "@" = true := by decide

theorem mem_keysToTranslate {table : Table} {k : String} :
    k ∈ keysToTranslate table ↔
      k ∈ table.map Prod.fst ∧ strStartsWith k "@" = false := by
  constructor
  · intro h
    have h₂ := List.of_mem_filter h
    simp only [Bool.and_eq_true, Bool.not_eq_true', decide_eq_false_iff_not] at h₂
    exact ⟨List.mem_of_mem_filter h, h₂.1⟩
  · intro ⟨h₁, h₂⟩
    apply List.mem_filter.mpr
    refine ⟨h₁, ?_⟩
    have h₃ : k ≠ "@@locale" := by
      intro h₃; subst h₃; rw [locale_tag_starts_at] at h₂; cases h₂
    simp [h₂, h₃]

theorem keysToTranslate_not_at {table : Table} {k : String}
    (h : k ∈ keysToTranslate table) : strStartsWith k "@" = false :=
  (mem_keysToTranslate.mp h).2

theorem keysToTranslate_ne_locale_tag {table : Table} {k : String}
    (h : k ∈ keysToTranslate table) : k ≠ "@@locale" := by
  intro h₂
  have := keysToTranslate_not_at h
  subst h₂; rw [locale_tag_starts_at] at this; cases this

theorem keysToTranslate_nodup {table : Table}
    (h : (table.map Prod.fst).Nodup) : (keysToTranslate table).Nodup :=
  h.filter _

/-! ### Metadata-loop lemmas -/

/-- The metadata loop never touches a key that does not start with
`"@"`. -/
theorem metaLoop_dlookup_not_at (t : Table) {k : String}
    (hk : strStartsWith k "@" = false) :
    ∀ d : Table, dlookup k (metaLoop t d) = dlookup k d := by
  induction t with
  | nil => intro d; rfl
  | cons p rest ih =>
    intro d
    obtain ⟨k₀, v₀⟩ := p
    by_cases h₀ : strStartsWith k₀ "@" = true
    · have hne : k ≠ k₀ := by
        intro h₂; subst h₂; rw [h₀] at hk; cases hk
      simp only [metaLoop, if_pos h₀]
      rw [ih, dlookup_dinsert_ne _ _ _ _ hne]
    · simp only [metaLoop, if_neg h₀]
      exact ih d

/-- The metadata loop leaves keys alone that the table does not
contain. -/
theorem metaLoop_dlookup_not_mem (t : Table) {k : String}
    (hk : k ∉ t.map Prod.fst) :
    ∀ d : Table, dlookup k (metaLoop t d) = dlookup k d := by
  induction t with
  | nil => intro d; rfl
  | cons p rest ih =>
    intro d
    obtain ⟨k₀, v₀⟩ := p
    simp only [List.map_cons, List.mem_cons, not_or] at hk
    simp only [metaLoop]
    by_cases h₀ : strStartsWith k₀ "@" = true
    · rw [if_pos h₀, ih hk.2, dlookup_dinsert_ne _ _ _ _ hk.1]
    · rw [if_neg h₀]; exact ih hk.2 d

/-- After the metadata loop, a metadata key of the table holds exactly
the value of the table. -/
theorem metaLoop_dlookup_mem {t : Table} {k : String} {v : JVal}
    (hmem : (k, v) ∈ t) (hnd : (t.map Prod.fst).Nodup)
    (hat : strStartsWith k "@" = true) :
    ∀ d : Table, dlookup k (metaLoop t d) = some v := by
  induction t with
  | nil => simp at hmem
  | cons p rest ih =>
    intro d
    obtain ⟨k₀, v₀⟩ := p
    simp only [List.map_cons, List.nodup_cons] at hnd
    rcases List.mem_cons.mp hmem with h₁ | h₁
    · obtain ⟨hk, hv⟩ := Prod.mk.injEq .. ▸ h₁
      injection h₁ with hk hv
      subst hk; subst hv
      simp only [metaLoop, if_pos hat]
      have hnm : k ∉ rest.map Prod.fst := hnd.1
      rw [metaLoop_dlookup_not_mem rest hnm, dlookup_dinsert_self]
    · have hk₀ : k ≠ k₀ := by
        intro h₂; subst h₂
        exact hnd.1 (List.mem_map_of_mem Prod.fst h₁)
      simp only [metaLoop]
      by_cases h₀ : strStartsWith k₀ "@" = true
      · rw [if_pos h₀]; exact ih h₁ hnd.2 _
      · rw [if_neg h₀]; exact ih h₁ hnd.2 d

/-- Key sequence after the metadata loop: the keys already present, then
the fresh metadata keys of the table in table order. -/
theorem metaLoop_map_fst {t : Table} (hnd : (t.map Prod.fst).Nodup) :
    ∀ d : Table,
      (metaLoop t d).map Prod.fst =
        d.map Prod.fst ++
          (t.map Prod.fst).filter
            (fun k => strStartsWith k "@" && !((d.map Prod.fst).contains k)) := by
  induction t with
  | nil => intro d; simp [metaLoop]
  | cons p rest ih =>
    intro d
    obtain ⟨k₀, v₀⟩ := p
    simp only [List.map_cons, List.nodup_cons] at hnd
    simp only [metaLoop, List.map_cons, List.filter_cons]
    by_cases h₀ : strStartsWith k₀ "@" = true
    · by_cases hm : k₀ ∈ d.map Prod.fst
      · have hpred :
            (strStartsWith k₀ "@" && !((d.map Prod.fst).contains k₀)) = false := by
          simp [h₀, hm]
        rw [if_pos h₀, hpred]
        rw [ih hnd.2]
        rw [dinsert_map_fst_of_mem _ _ _ hm]
        simp only [Bool.false_eq_true, if_false]
      · have hpred :
            (strStartsWith k₀ "@" && !((d.map Prod.fst).contains k₀)) = true := by
          simp [h₀, hm]
        rw [if_pos h₀, hpred]
        rw [ih hnd.2]
        rw [dinsert_map_fst_of_not_mem _ _ _ hm]
        simp only [if_true, List.append_assoc, List.singleton_append,
          List.append_cancel_left_eq, List.cons.injEq, true_and]
        apply List.filter_congr
        intro k hk
        have hne : k ≠ k₀ := by
          intro h₂; subst h₂; exact hnd.1 hk
        have hmm : decide (k ∈ d.map Prod.fst ++ [k₀]) =
            decide (k ∈ d.map Prod.fst) := by
          rw [decide_eq_decide]
          simp [hne]
        simp only [List.elem_eq_mem]
        rw [hmm]
    · have hpred :
          (strStartsWith k₀ "@" && !((d.map Prod.fst).contains k₀)) = false := by
        simp only [Bool.and_eq_false_iff]
        left
        exact Bool.not_eq_true _ ▸ h₀
      rw [if_neg h₀, hpred]
      simp only [Bool.false_eq_true, if_false]
      exact ih hnd.2 d

/-- Key membership after the metadata loop, no uniqueness needed. -/
theorem metaLoop_mem_map_fst (t : Table) (k : String) :
    ∀ d : Table,
      (k ∈ (metaLoop t d).map Prod.fst ↔
        k ∈ d.map Prod.fst ∨
          (k ∈ t.map Prod.fst ∧ strStartsWith k "@" = true)) := by
  induction t with
  | nil => intro d; simp [metaLoop]
  | cons p rest ih =>
    intro d
    obtain ⟨k₀, v₀⟩ := p
    simp only [metaLoop, List.map_cons, List.mem_cons]
    by_cases h₀ : strStartsWith k₀ "@" = true
    · rw [if_pos h₀, ih]
      by_cases hm : k₀ ∈ d.map Prod.fst
      · rw [dinsert_map_fst_of_mem _ _ _ hm]
        constructor
        · rintro (h | h)
          · exact Or.inl h
          · exact Or.inr ⟨Or.inr h.1, h.2⟩
        · rintro (h | ⟨h₁ | h₁, h₂⟩)
          · exact Or.inl h
          · subst h₁; exact Or.inl hm
          · exact Or.inr ⟨h₁, h₂⟩
      · rw [dinsert_map_fst_of_not_mem _ _ _ hm]
        simp only [List.mem_append, List.mem_singleton]
        constructor
        · rintro ((h | h) | h)
          · exact Or.inl h
          · subst h; exact Or.inr ⟨Or.inl rfl, h₀⟩
          · exact Or.inr ⟨Or.inr h.1, h.2⟩
        · rintro (h | ⟨h₁ | h₁, h₂⟩)
          · exact Or.inl (Or.inl h)
          · subst h₁; exact Or.inl (Or.inr rfl)
          · exact Or.inr ⟨h₁, h₂⟩
    · rw [if_neg h₀, ih]
      have h₀f : strStartsWith k₀ "@" = false := by
        cases h : strStartsWith k₀ "@"
        · rfl
        · exact absurd h h₀
      constructor
      · rintro (h | h)
        · exact Or.inl h
        · exact Or.inr ⟨Or.inr h.1, h.2⟩
      · rintro (h | ⟨h₁ | h₁, h₂⟩)
        · exact Or.inl h
        · subst h₁; rw [h₀f] at h₂; cases h₂
        · exact Or.inr ⟨h₁, h₂⟩

/-! ### Closed form of the translation loop

When every key to be processed maps to a string value `f k` in the table
and the keys are fresh and pairwise distinct, the loop succeeds and its
document, log and call list are each a pointwise function of the
individual entries. -/

theorem transLoop_closed (tr : Backend) (lang : String) (table : Table)
    (f : String → String) :
    ∀ (ks : List String) (doc : Table)
      (log : List (String × String × String)) (calls : List String),
      (∀ k ∈ ks, dlookup k table = some (JVal.str (f k))) →
      ks.Nodup →
      (∀ k ∈ ks, k ∉ doc.map Prod.fst) →
      transLoop tr lang table ks doc log calls =
        .ok (doc ++ ks.map (fun k => (k, JVal.str (procV tr lang (f k)))),
             log ++ ks.filterMap (fun k => logEntry tr lang (f k) k),
             calls ++ ks.filterMap (fun k => callEntry (f k))) := by
  intro ks
  induction ks with
  | nil => intro doc log calls _ _ _; simp [transLoop]
  | cons k ks ih =>
    intro doc log calls hf hnd hfresh
    have hk : dlookup k table = some (JVal.str (f k)) :=
      hf k (List.mem_cons_self _ _)
    have hfr : k ∉ doc.map Prod.fst := hfresh k (List.mem_cons_self _ _)
    have hnd' := List.nodup_cons.mp hnd
    have hfresh' : ∀ k₁ ∈ ks, k₁ ∉ (doc ++ [(k, JVal.str (procV tr lang (f k)))]).map Prod.fst := by
      intro k₁ hk₁
      simp only [List.map_append, List.mem_append, List.map_cons,
        List.map_nil, List.mem_singleton, not_or]
      refine ⟨hfresh k₁ (List.mem_cons_of_mem _ hk₁), ?_⟩
      intro h₂; subst h₂; exact hnd'.1 hk₁
    have hf' : ∀ k₁ ∈ ks, dlookup k₁ table = some (JVal.str (f k₁)) :=
      fun k₁ h₁ => hf k₁ (List.mem_cons_of_mem _ h₁)
    simp only [transLoop, hk]
    by_cases hp : hasPlaceholder (f k) = true
    · rw [if_pos hp]
      rw [dinsert_of_not_mem _ _ _ hfr]
      have hproc : procV tr lang (f k) = f k := by
        unfold procV; rw [if_pos hp]
      rw [hproc] at hfresh'
      rw [ih _ _ _ hf' hnd'.2 hfresh']
      have hlog : logEntry tr lang (f k) k = none := by
        unfold logEntry; rw [if_pos hp]
      have hcall : callEntry (f k) = none := by
        unfold callEntry; rw [if_pos hp]
      simp [List.filterMap_cons, hlog, hcall, hproc]
    · have hpf : hasPlaceholder (f k) = false := by
        cases h : hasPlaceholder (f k)
        · rfl
        · exact absurd h hp
      rw [if_neg hp]
      cases htr : tr lang (f k) with
      | ok t =>
        simp only []
        have hproc : procV tr lang (f k) = t := by
          unfold procV; rw [if_neg hp, htr]
        rw [dinsert_of_not_mem _ _ _ hfr]
        rw [hproc] at hfresh'
        rw [ih _ _ _ hf' hnd'.2 hfresh']
        have hlog : logEntry tr lang (f k) k = none := by
          unfold logEntry; rw [if_neg hp, htr]
        have hcall : callEntry (f k) = some (f k) := by
          unfold callEntry; rw [if_neg hp]
        simp [List.filterMap_cons, hlog, hcall, hproc]
      | error e =>
        simp only []
        have hproc : procV tr lang (f k) = f k := by
          unfold procV; rw [if_neg hp, htr]
        rw [dinsert_of_not_mem _ _ _ hfr]
        rw [hproc] at hfresh'
        rw [ih _ _ _ hf' hnd'.2 hfresh']
        have hlog : logEntry tr lang (f k) k = some (lang, k, e) := by
          unfold logEntry; rw [if_neg hp, htr]
        have hcall : callEntry (f k) = some (f k) := by
          unfold callEntry; rw [if_neg hp]
        simp [List.filterMap_cons, hlog, hcall, hproc]

/-- Closed form of a whole worker run, under the two facts every table
loaded from a JSON object file satisfies: keys are unique, and (for the
run not to die of a TypeError) every translatable key maps to a string
value, named by the function `f`. -/
theorem translate_language_closed (tr : Backend) (table : Table)
    (lang : String) (f : String → String)
    (hf : ∀ k ∈ keysToTranslate table, dlookup k table = some (JVal.str (f k)))
    (hnd : (table.map Prod.fst).Nodup) :
    translate_language tr table lang =
      .ok { doc := metaLoop table (docMid tr table lang f),
            log := (keysToTranslate table).filterMap
              (fun k => logEntry tr lang (f k) k),
            calls := (keysToTranslate table).filterMap
              (fun k => callEntry (f k)),
            writes := [osPathJoin OUTPUT_DIR ("app_" ++ lang ++ ".arb")] } := by
  have hfresh : ∀ k ∈ keysToTranslate table, k ∉ (doc₀ lang).map Prod.fst := by
    intro k hk
    simp only [doc₀, List.map_cons, List.map_nil, List.mem_singleton]
    exact keysToTranslate_ne_locale_tag hk
  have hstep := transLoop_closed tr lang table f (keysToTranslate table)
    (doc₀ lang) [] [] hf (keysToTranslate_nodup hnd) hfresh
  unfold translate_language
  rw [show [("@@locale", JVal.str lang)] = doc₀ lang from rfl, hstep]
  simp only [List.nil_append]
  rfl

/-! ### Backend congruence -/

theorem transLoop_congr (tr tr₁ : Backend) (lang : String) (table : Table)
    (h : ∀ u, tr lang u = tr₁ lang u) :
    ∀ (ks : List String) (doc : Table)
      (log : List (String × String × String)) (calls : List String),
      transLoop tr lang table ks doc log calls =
        transLoop tr₁ lang table ks doc log calls := by
  intro ks
  induction ks with
  | nil => intro doc log calls; rfl
  | cons k ks ih =>
    intro doc log calls
    simp only [transLoop]
    cases dlookup k table with
    | none => rfl
    | some v =>
      cases v with
      | obj o => rfl
      | str s =>
        simp only []
        by_cases hp : hasPlaceholder s = true
        · rw [if_pos hp, if_pos hp, ih]
        · rw [if_neg hp, if_neg hp, h s]
          cases tr₁ lang s with
          | ok t => exact ih _ _ _
          | error e => exact ih _ _ _

theorem translate_language_congr (tr tr₁ : Backend) (table : Table)
    (lang : String) (h : ∀ u, tr lang u = tr₁ lang u) :
    translate_language tr table lang = translate_language tr₁ table lang := by
  unfold translate_language
  rw [transLoop_congr tr tr₁ lang table h]

/-! ### Call-list lemmas that need no uniqueness -/

/-- Every value the loop adds to the call list lacks a placeholder. -/
theorem transLoop_calls_sound (tr : Backend) (lang : String) (table : Table) :
    ∀ (ks : List String) (doc : Table)
      (log : List (String × String × String)) (calls : List String)
      (out : Table × List (String × String × String) × List String),
      transLoop tr lang table ks doc log calls = .ok out →
      ∀ v ∈ out.2.2, v ∈ calls ∨ hasPlaceholder v = false := by
  intro ks
  induction ks with
  | nil =>
    intro doc log calls out h v hv
    simp only [transLoop, Except.ok.injEq] at h
    subst h
    exact Or.inl hv
  | cons k ks ih =>
    intro doc log calls out h v hv
    simp only [transLoop] at h
    cases hdl : dlookup k table with
    | none => rw [hdl] at h; cases h
    | some w =>
      rw [hdl] at h
      cases w with
      | obj o =>
        simp only [] at h
        exact Except.noConfusion h
      | str s =>
        simp only [] at h
        by_cases hp : hasPlaceholder s = true
        · rw [if_pos hp] at h
          exact ih _ _ _ _ h v hv
        · have hpf : hasPlaceholder s = false := by
            cases hq : hasPlaceholder s
            · rfl
            · exact absurd hq hp
          rw [if_neg hp] at h
          cases htr : tr lang s with
          | ok t =>
            rw [htr] at h
            rcases ih _ _ _ _ h v hv with h₁ | h₁
            · rcases List.mem_append.mp h₁ with h₂ | h₂
              · exact Or.inl h₂
              · right
                rw [List.mem_singleton.mp h₂]
                exact hpf
            · exact Or.inr h₁
          | error e =>
            rw [htr] at h
            rcases ih _ _ _ _ h v hv with h₁ | h₁
            · rcases List.mem_append.mp h₁ with h₂ | h₂
              · exact Or.inl h₂
              · right
                rw [List.mem_singleton.mp h₂]
                exact hpf
            · exact Or.inr h₁

/-! ### Lemmas about the mid-loop document -/

theorem docMid_map_fst (tr : Backend) (table : Table) (lang : String)
    (f : String → String) :
    (docMid tr table lang f).map Prod.fst =
      "@@locale" :: keysToTranslate table := by
  simp only [docMid, List.map_cons, List.map_map]
  rw [show (Prod.fst ∘ fun k => (k, JVal.str (procV tr lang (f k)))) = id
    from rfl, List.map_id]

theorem dlookup_docMid_mem (tr : Backend) (table : Table) (lang : String)
    (f : String → String) {k : String} (hk : k ∈ keysToTranslate table) :
    dlookup k (docMid tr table lang f) =
      some (JVal.str (procV tr lang (f k))) := by
  have hne : "@@locale" ≠ k := Ne.symm (keysToTranslate_ne_locale_tag hk)
  simp only [docMid, dlookup, if_neg hne]
  exact dlookup_map_self (fun k => JVal.str (procV tr lang (f k))) hk

theorem dlookup_docMid_locale_tag (tr : Backend) (table : Table)
    (lang : String) (f : String → String) :
    dlookup "@@locale" (docMid tr table lang f) = some (JVal.str lang) := by
  simp [docMid, dlookup]

/-- The looked-up value of a translatable key in the finished document:
the metadata loop does not disturb it, so it is the per-entry result. -/
theorem final_doc_translatable (tr : Backend) (table : Table)
    (lang : String) (f : String → String) {k : String}
    (hk : k ∈ keysToTranslate table) :
    dlookup k (metaLoop table (docMid tr table lang f)) =
      some (JVal.str (procV tr lang (f k))) := by
  rw [metaLoop_dlookup_not_at table (keysToTranslate_not_at hk)]
  exact dlookup_docMid_mem tr table lang f hk

/-! ## Claim C1

The spec asserts the finished document's locale tag equals the target
locale.  Line 46 of `lang.py` does start the document with the target
locale, but the metadata loop of lines 62-64 copies every key starting
with `"@"` unchanged from the source table, and the locale-tag key
starts with `"@"`, so a source table carrying its own locale tag (as
every ARB file does, and as the spec's worked example does) overwrites
the target tag with the source tag.  The initialization on line 46 and
the spec's worked example show the overwrite is an accident of the code,
not intent. -/

/-- C1: evaluation of the worker on the spec's worked example, target
locale "fr".  The finished document's locale tag is the source tag "en",
not the target "fr": the code contradicts the claim (and its own line
46) on this input. -/
theorem locale_tag_is_source_not_target :
    lookupDoc "@@locale" (translate_language trStub specTable "fr") =
        some (JVal.str "en") ∧
      "en" ≠ "fr" := by
  constructor
  · rfl
  · decide

/-! ## Claim C3

The document always receives the locale-tag key, so for a source table
that lacks that key the key sets differ: the claim fails as universally
stated.  For tables containing the locale-tag key (every well-formed ARB
table) the key sets agree exactly. -/

/-- C3 counterexample: for the well-formed one-entry source table
without a locale-tag key, the produced document contains the key
`"@@locale"`, which the source table does not contain — an addition,
refuting exact key-set equality. -/
theorem doc_key_set_gains_locale_tag :
    "@@locale" ∈ docKeys (translate_language trStub tableNoTag "fr") ∧
      "@@locale" ∉ tableNoTag.map Prod.fst := by
  constructor
  · decide
  · decide

/-- C3 amended: the key set of the produced document is exactly the key
set of the source table together with the locale-tag key `"@@locale"`;
in particular it equals the key set of the source table whenever the
source table itself carries the locale-tag key. -/
theorem doc_key_set_eq_table_keys_plus_locale_tag (tr : Backend)
    (table : Table) (lang : String) (f : String → String)
    (hf : ∀ k ∈ keysToTranslate table,
      dlookup k table = some (JVal.str (f k)))
    (hnd : (table.map Prod.fst).Nodup) :
    ∀ k, k ∈ docKeys (translate_language tr table lang) ↔
      (k = "@@locale" ∨ k ∈ table.map Prod.fst) := by
  intro k
  rw [translate_language_closed tr table lang f hf hnd]
  show k ∈ (metaLoop table (docMid tr table lang f)).map Prod.fst ↔ _
  rw [metaLoop_mem_map_fst, docMid_map_fst, List.mem_cons]
  constructor
  · rintro ((h | h) | h)
    · exact Or.inl h
    · exact Or.inr (mem_keysToTranslate.mp h).1
    · exact Or.inr h.1
  · rintro (h | h)
    · exact Or.inl (Or.inl h)
    · by_cases hat : strStartsWith k "@" = true
      · exact Or.inr ⟨h, hat⟩
      · have hatf : strStartsWith k "@" = false := by
          cases hq : strStartsWith k "@"
          · rfl
          · exact absurd hq hat
        exact Or.inl (Or.inr (mem_keysToTranslate.mpr ⟨h, hatf⟩))

/-- C3 witness: the amended statement evaluated on the one-entry table,
at the key "bye". -/
theorem doc_key_set_eq_table_keys_plus_locale_tag_witness :
    ("bye" ∈ docKeys (translate_language trStub tableNoTag "fr")) ↔
      ("bye" = "@@locale" ∨ "bye" ∈ tableNoTag.map Prod.fst) :=
  doc_key_set_eq_table_keys_plus_locale_tag trStub tableNoTag "fr" fNoTag
    (by
      intro k hk
      have h₁ : keysToTranslate tableNoTag = ["bye"] := rfl
      rw [h₁] at hk
      rw [List.mem_singleton.mp hk]
      rfl)
    (by decide) "bye"

/-! ## Claim C7

Keys are indeed processed in source order within each of the worker's
phases, but the two phases reorder the document: the locale tag comes
first, then the translatable keys in source order, then the metadata
keys in source order.  A table whose metadata key precedes a
translatable key therefore refutes "the document's key sequence is the
source table's key sequence".  The shape is still deterministic. -/

/-- C7 counterexample: a table listing a metadata key before a
translatable key.  The document's key sequence is not the source table's
key sequence. -/
theorem doc_key_sequence_differs_from_table :
    docKeys (translate_language trStub tableMetaFirst "de") =
        ["@@locale", "greet", "@x"] ∧
      tableMetaFirst.map Prod.fst = ["@x", "greet"] ∧
      docKeys (translate_language trStub tableMetaFirst "de") ≠
        tableMetaFirst.map Prod.fst := by
  refine ⟨by decide, by decide, by decide⟩

/-- C7 amended: the document's key sequence is a deterministic function
of the source table's key sequence, namely the locale-tag key first,
then the translatable keys in source-table order, then the remaining
metadata keys in source-table order. -/
theorem doc_key_sequence_deterministic (tr : Backend) (table : Table)
    (lang : String) (f : String → String)
    (hf : ∀ k ∈ keysToTranslate table,
      dlookup k table = some (JVal.str (f k)))
    (hnd : (table.map Prod.fst).Nodup) :
    docKeys (translate_language tr table lang) =
      "@@locale" :: keysToTranslate table ++
        (table.map Prod.fst).filter
          (fun k => strStartsWith k "@" && !(k = "@@locale" : Bool)) := by
  rw [translate_language_closed tr table lang f hf hnd]
  show (metaLoop table (docMid tr table lang f)).map Prod.fst = _
  rw [metaLoop_map_fst hnd, docMid_map_fst]
  simp only [List.cons_append]
  congr 1
  congr 1
  apply List.filter_congr
  intro k hk
  by_cases hat : strStartsWith k "@" = true
  · rw [hat]
    simp only [Bool.true_and]
    have hks : k ∉ keysToTranslate table := by
      intro h₂
      rw [keysToTranslate_not_at h₂] at hat
      cases hat
    by_cases hloc : k = "@@locale"
    · subst hloc
      simp
    · have : k ∉ ("@@locale" :: keysToTranslate table) := by
        intro h₂
        rcases List.mem_cons.mp h₂ with h₃ | h₃
        · exact hloc h₃
        · exact hks h₃
      simp [this, hloc]
  · have hatf : strStartsWith k "@" = false := by
      cases hq : strStartsWith k "@"
      · rfl
      · exact absurd hq hat
    rw [hatf]
    simp

/-- C7 witness: the amended deterministic shape evaluated on the spec's
worked example. -/
theorem doc_key_sequence_deterministic_witness :
    docKeys (translate_language trStub specTable "fr") =
      "@@locale" :: keysToTranslate specTable ++
        (specTable.map Prod.fst).filter
          (fun k => strStartsWith k "@" && !(k = "@@locale" : Bool)) :=
  doc_key_sequence_deterministic trStub specTable "fr" fSpec
    (by
      intro k hk
      have h₁ : keysToTranslate specTable = ["greet", "bye"] := rfl
      rw [h₁] at hk
      rcases List.mem_cons.mp hk with h₂ | h₂
      · subst h₂; rfl
      · rw [List.mem_singleton.mp h₂]; rfl)
    (by decide)

/-! ## Claim C2

A value that the placeholder pattern matches is copied into the document
byte-identically — whether as a translatable entry (guarded copy, lines
51-52) or as a metadata entry (metadata copy, lines 62-64) — and is
never among the values sent to the backend, because only values the
guard rejects reach the backend call. -/

/-- C2: for every source table and every key holding a string value
matched by the placeholder pattern, the document of every target locale
holds that exact value at that key, and that value is not among the
values passed to the backend. -/
theorem placeholder_value_copied_verbatim (tr : Backend) (table : Table)
    (lang : String) (f : String → String) {key v : String}
    (hf : ∀ k ∈ keysToTranslate table,
      dlookup k table = some (JVal.str (f k)))
    (hnd : (table.map Prod.fst).Nodup)
    (hk : dlookup key table = some (JVal.str v))
    (hp : hasPlaceholder v = true) :
    lookupDoc key (translate_language tr table lang) =
        some (JVal.str v) ∧
      v ∉ callsOf (translate_language tr table lang) := by
  rw [translate_language_closed tr table lang f hf hnd]
  constructor
  · show dlookup key (metaLoop table (docMid tr table lang f)) =
      some (JVal.str v)
    by_cases hat : strStartsWith key "@" = true
    · exact metaLoop_dlookup_mem (dlookup_mem hk) hnd hat _
    · have hmem : key ∈ keysToTranslate table :=
        mem_keysToTranslate.mpr ⟨mem_fst_of_dlookup hk, bool_eq_false hat⟩
      rw [final_doc_translatable tr table lang f hmem]
      have hfk := hf key hmem
      rw [hk] at hfk
      have hfv : v = f key := JVal.str.inj (Option.some.inj hfk)
      rw [← hfv]
      unfold procV
      rw [if_pos hp]
  · show v ∉ (keysToTranslate table).filterMap (fun k => callEntry (f k))
    intro hv
    obtain ⟨k₁, _, hc⟩ := List.mem_filterMap.mp hv
    by_cases hpk : hasPlaceholder (f k₁) = true
    · unfold callEntry at hc
      rw [if_pos hpk] at hc
      cases hc
    · unfold callEntry at hc
      rw [if_neg hpk] at hc
      have h₂ : f k₁ = v := Option.some.inj hc
      rw [h₂] at hpk
      exact hpk hp

/-- C2 witness: the worked example's key "greet" with value
"Hello {name}", target "fr": the value is copied verbatim and never
called. -/
theorem placeholder_value_copied_verbatim_witness :
    lookupDoc "greet" (translate_language trStub specTable "fr") =
        some (JVal.str "Hello {name}") ∧
      "Hello {name}" ∉ callsOf (translate_language trStub specTable "fr") :=
  placeholder_value_copied_verbatim trStub specTable "fr" fSpec
    (by
      intro k hk
      have h₁ : keysToTranslate specTable = ["greet", "bye"] := rfl
      rw [h₁] at hk
      rcases List.mem_cons.mp hk with h₂ | h₂
      · subst h₂; rfl
      · rw [List.mem_singleton.mp h₂]; rfl)
    (by decide) (by rfl) (by decide)

/-! ## Claim C4

A failing backend call falls back to the source value for exactly that
key, logs the failure with its locale and key, affects no other key of
that locale and no other locale, and the worker (hence the batch) is not
aborted.  In the deterministic-function backend model a "failing call"
is a backend disagreeing with a non-failing one at exactly that locale
and value. -/

/-- C4: when the backend fails on the value of one (key, locale) pair,
the worker still completes, that key holds the source value, the failure
triple (locale, key, error) is logged, every key of the same locale
whose value differs is unaffected, and every other locale's whole run is
unaffected. -/
theorem failure_falls_back_and_is_isolated (tr tr₁ : Backend)
    (table : Table) (lang : String) (f : String → String)
    {key e : String}
    (hf : ∀ k ∈ keysToTranslate table,
      dlookup k table = some (JVal.str (f k)))
    (hnd : (table.map Prod.fst).Nodup)
    (hk : key ∈ keysToTranslate table)
    (hp : hasPlaceholder (f key) = false)
    (hfail : tr₁ lang (f key) = .error e)
    (hagree : ∀ l u, l ≠ lang ∨ u ≠ f key → tr₁ l u = tr l u) :
    runOk (translate_language tr₁ table lang) = true ∧
      lookupDoc key (translate_language tr₁ table lang) =
        some (JVal.str (f key)) ∧
      (lang, key, e) ∈ logsOf (translate_language tr₁ table lang) ∧
      (∀ k₁, k₁ ∈ keysToTranslate table → f k₁ ≠ f key →
        lookupDoc k₁ (translate_language tr₁ table lang) =
          lookupDoc k₁ (translate_language tr table lang)) ∧
      (∀ l, l ≠ lang →
        translate_language tr₁ table l = translate_language tr table l) := by
  have hclosed₁ := translate_language_closed tr₁ table lang f hf hnd
  have hclosed := translate_language_closed tr table lang f hf hnd
  refine ⟨?_, ?_, ?_, ?_, ?_⟩
  · rw [hclosed₁]; rfl
  · rw [hclosed₁]
    show dlookup key (metaLoop table (docMid tr₁ table lang f)) = _
    rw [final_doc_translatable tr₁ table lang f hk]
    unfold procV
    rw [if_neg (by rw [hp]; exact Bool.false_ne_true), hfail]
  · rw [hclosed₁]
    show (lang, key, e) ∈
      (keysToTranslate table).filterMap (fun k => logEntry tr₁ lang (f k) k)
    refine List.mem_filterMap.mpr ⟨key, hk, ?_⟩
    unfold logEntry
    rw [if_neg (by rw [hp]; exact Bool.false_ne_true), hfail]
  · intro k₁ hk₁ hne
    rw [hclosed₁, hclosed]
    show dlookup k₁ (metaLoop table (docMid tr₁ table lang f)) =
      dlookup k₁ (metaLoop table (docMid tr table lang f))
    rw [final_doc_translatable tr₁ table lang f hk₁,
      final_doc_translatable tr table lang f hk₁]
    have hpv : procV tr₁ lang (f k₁) = procV tr lang (f k₁) := by
      unfold procV
      by_cases hpl : hasPlaceholder (f k₁) = true
      · rw [if_pos hpl, if_pos hpl]
      · rw [if_neg hpl, if_neg hpl, hagree lang (f k₁) (Or.inr hne)]
    rw [hpv]
  · intro l hl
    exact translate_language_congr tr₁ tr table l
      (fun u => hagree l u (Or.inl hl))

/-- C4 witness: the backend `trFail` fails exactly on ("fr", "Goodbye");
on the two-entry table the worker completes, "bye" falls back to
"Goodbye", the failure is logged, the sibling key "hello" matches the
non-failing run, and the German run is untouched. -/
theorem failure_falls_back_and_is_isolated_witness :
    runOk (translate_language trFail tablePair "fr") = true ∧
      lookupDoc "bye" (translate_language trFail tablePair "fr") =
        some (JVal.str "Goodbye") ∧
      ("fr", "bye", "boom") ∈ logsOf (translate_language trFail tablePair "fr") ∧
      lookupDoc "hello" (translate_language trFail tablePair "fr") =
        lookupDoc "hello" (translate_language trStub tablePair "fr") ∧
      translate_language trFail tablePair "de" =
        translate_language trStub tablePair "de" := by
  have h := failure_falls_back_and_is_isolated trStub trFail tablePair "fr"
    fPair
    (by
      intro k hk
      have h₁ : keysToTranslate tablePair = ["bye", "hello"] := rfl
      rw [h₁] at hk
      rcases List.mem_cons.mp hk with h₂ | h₂
      · subst h₂; rfl
      · rw [List.mem_singleton.mp h₂]; rfl)
    (by decide)
    (show "bye" ∈ keysToTranslate tablePair by decide)
    (by decide)
    (by rfl)
    (by
      intro l u hlu
      show (if l = "fr" ∧ u = "Goodbye" then _ else trStub l u) = trStub l u
      rw [if_neg ?_]
      rcases hlu with h₁ | h₁
      · exact fun hc => h₁ hc.1
      · exact fun hc => h₁ hc.2)
  obtain ⟨h₁, h₂, h₃, h₄, h₅⟩ := h
  exact ⟨h₁, h₂, h₃, h₄ "hello" (by decide) (by decide), h₅ "de" (by decide)⟩

/-! ## Claim C10

The guard matches only brace pairs enclosing one or more word
characters; an empty pair, a pair with a space, or a pair with a hyphen
is rejected, and such values do go to the backend. -/

/-- C10: the guard rejects "\x7b\x7d", "\x7bfirst name\x7d" and
"\x7ba-b\x7d", and a translatable value the guard rejects is sent to the
backend. -/
theorem guard_rejects_malformed_braces_and_value_is_sent (tr : Backend)
    (table : Table) (lang : String) (f : String → String) {key : String}
    (hf : ∀ k ∈ keysToTranslate table,
      dlookup k table = some (JVal.str (f k)))
    (hnd : (table.map Prod.fst).Nodup)
    (hk : key ∈ keysToTranslate table)
    (hp : hasPlaceholder (f key) = false) :
    hasPlaceholder "{}" = false ∧
      hasPlaceholder "{first name}" = false ∧
      hasPlaceholder "{a-b}" = false ∧
      f key ∈ callsOf (translate_language tr table lang) := by
  refine ⟨by decide, by decide, by decide, ?_⟩
  rw [translate_language_closed tr table lang f hf hnd]
  show f key ∈ (keysToTranslate table).filterMap (fun k => callEntry (f k))
  refine List.mem_filterMap.mpr ⟨key, hk, ?_⟩
  unfold callEntry
  rw [if_neg (by rw [hp]; exact Bool.false_ne_true)]

/-- C10 witness: the malformed-brace value "\x7ba-b\x7d" is sent to the
backend. -/
theorem guard_rejects_malformed_braces_and_value_is_sent_witness :
    hasPlaceholder "{}" = false ∧
      hasPlaceholder "{first name}" = false ∧
      hasPlaceholder "{a-b}" = false ∧
      "{a-b}" ∈ callsOf (translate_language trStub tableBadBrace "fr") :=
  guard_rejects_malformed_braces_and_value_is_sent trStub tableBadBrace
    "fr" fBadBrace
    (by
      intro k hk
      have h₁ : keysToTranslate tableBadBrace = ["k1"] := rfl
      rw [h₁] at hk
      rw [List.mem_singleton.mp hk]
      rfl)
    (by decide)
    (show "k1" ∈ keysToTranslate tableBadBrace by decide)
    (by decide)

/-! ## Claim C5

The dispatch loop busy-waits until fewer than `THREADS` started threads
are alive before starting the next one; only the main thread starts
threads; so along every reachable state of the loop's step relation the
count of alive workers stays at or below `THREADS`. -/

/-- C5: in every reachable state of the dispatch loop, the number of
alive worker threads is at most `THREADS`. -/
theorem alive_workers_at_most_THREADS (s : OrchState)
    (h : DispatchReach s) : s.running ≤ THREADS := by
  induction h with
  | init => exact Nat.zero_le _
  | step hr hs ih =>
    cases hs with
    | spawn l rest hpend hlt => exact hlt
    | finish hpos => exact le_trans (Nat.sub_le _ _) ih

/-- C5 witness: the state reached by dispatching the first catalog
locale is reachable and satisfies the bound. -/
theorem alive_workers_at_most_THREADS_witness :
    ({ pending := targetLocales.tail, running := 1 } : OrchState).running ≤
      THREADS :=
  alive_workers_at_most_THREADS _
    (DispatchReach.step DispatchReach.init
      (DispatchStep.spawn _ "hi" targetLocales.tail (by decide) (by decide)))

/-! ## Claim C6

The worker writes with `open(output_file, "w")`, which truncates the
destination before `json.dump` streams the new contents into it.  An
observer (or a crash) between the truncation and the end of the dump
sees a partial document — at the truncation point, an empty one.  The
claim of an all-or-nothing write therefore fails on the code; what does
hold is that a write that runs to completion leaves exactly the full
document. -/

/-- C6 counterexample: for previous contents "x" and document "\x7b\x7d"
the observable contents include the empty string, which is neither the
previous contents nor the full document: the write is not
all-or-nothing. -/
theorem write_not_all_or_nothing : ¬ allOrNothing "x" "{}" := by
  intro h
  rcases h "" (by simp [outputSink]) with h₁ | h₁
  · exact absurd h₁ (by decide)
  · exact absurd h₁ (by decide)

/-- C6 amended: the destination holds the previous contents before the
write and exactly the full document once the write has completed; but in
between, the truncating open makes an empty partial state observable. -/
theorem completed_write_leaves_full_document (old content : String) :
    (outputSink old content).head? = some old ∧
      (outputSink old content).getLast? = some content ∧
      "" ∈ outputSink old content :=
  ⟨rfl, rfl, by simp [outputSink]⟩

/-! ## Claim C8

Each locale's document is a pure function of the source table and the
backend's answers: two batch runs over the same table with backends that
answer identically produce identical documents, hence byte-identical
serializations under any serialization function. -/

/-- C8: two batch runs over the same source table with backends that
agree on every (locale, text) call produce, for every serialization
function, byte-identical serialized documents for every locale. -/
theorem batch_deterministic_under_backend (ser : Table → String)
    (tr₁ tr₂ : Backend) (table : Table)
    (h : ∀ l u, tr₁ l u = tr₂ l u) :
    (batchRun tr₁ table).map
        (fun p => (p.1, p.2.map (fun o => ser o.doc))) =
      (batchRun tr₂ table).map
        (fun p => (p.1, p.2.map (fun o => ser o.doc))) := by
  have hb : batchRun tr₁ table = batchRun tr₂ table := by
    unfold batchRun
    apply List.map_congr_left
    intro l _
    rw [translate_language_congr tr₁ tr₂ table l (fun u => h l u)]
  rw [hb]

/-- C8 witness: the determinism statement applied to the stub backend
and the worked example table. -/
theorem batch_deterministic_under_backend_witness :
    (batchRun trStub specTable).map
        (fun p => (p.1, p.2.map (fun o => o.doc.length.repr))) =
      (batchRun trStub specTable).map
        (fun p => (p.1, p.2.map (fun o => o.doc.length.repr))) :=
  batch_deterministic_under_backend (fun d => d.length.repr) trStub trStub
    specTable (fun _ _ => rfl)

/-! ## Claim C9

The destination is `os.path.join(OUTPUT_DIR, "app_" + lang + ".arb")`,
and since `OUTPUT_DIR` ends with a separator the join is plain
concatenation; the worker opens no other path. -/

/-- For every catalog target locale the join evaluates to the
concatenated path. -/
theorem paths_all_join_eval :
    targetLocales.all
      (fun l => osPathJoin OUTPUT_DIR ("app_" ++ l ++ ".arb") =
        "langfiles/app_" ++ l ++ ".arb") = true := by
  decide

/-- C9: a completed worker for a catalog target locale writes exactly
one path, the join of the output directory and `app_<locale>.arb`, which
is `langfiles/app_<locale>.arb`. -/
theorem output_written_exactly_to_joined_path (tr : Backend)
    (table : Table) (lang : String) (h : lang ∈ targetLocales)
    (hok : runOk (translate_language tr table lang) = true) :
    writesOf (translate_language tr table lang) =
        [osPathJoin OUTPUT_DIR ("app_" ++ lang ++ ".arb")] ∧
      writesOf (translate_language tr table lang) =
        ["langfiles/app_" ++ lang ++ ".arb"] := by
  have hpath : osPathJoin OUTPUT_DIR ("app_" ++ lang ++ ".arb") =
      "langfiles/app_" ++ lang ++ ".arb" := by
    have hall := paths_all_join_eval
    rw [List.all_eq_true] at hall
    exact of_decide_eq_true (hall lang h)
  cases htl : transLoop tr lang table (keysToTranslate table)
      [("@@locale", JVal.str lang)] [] [] with
  | error e =>
    unfold runOk translate_language at hok
    rw [htl] at hok
    simp only [] at hok
    cases hok
  | ok trip =>
    obtain ⟨d, lg, cs⟩ := trip
    unfold writesOf translate_language
    rw [htl]
    exact ⟨rfl, by rw [hpath]⟩

/-- C9 witness: the stub run for locale "hi" on the empty table writes
exactly `langfiles/app_hi.arb`. -/
theorem output_written_exactly_to_joined_path_witness :
    writesOf (translate_language trStub [] "hi") =
        [osPathJoin OUTPUT_DIR ("app_" ++ "hi" ++ ".arb")] ∧
      writesOf (translate_language trStub [] "hi") =
        ["langfiles/app_" ++ "hi" ++ ".arb"] :=
  output_written_exactly_to_joined_path trStub [] "hi" (by decide) (by rfl)

end LangPy
